import Mathlib

/-!
Shallow embedding of `src/lib.rs` of the `rconfig` crate.

Text is modelled as `List Char` (Rust `str` at the character level; the
byte-slicing performed by the source is modelled explicitly by `dropBytes`,
which accounts for the UTF-8 byte width of each character).  The external
`R CMD config --all` subprocess is modelled by the `CmdOutcome` type: either
an I/O error at launch, or a completed run with an exit code and the decoded
stderr/stdout texts.  `HashMap<String, String>` is modelled as a function
`List Char → Option (List Char)` with overwriting insertion.
-/

/-- Rust `char::is_whitespace`: the Unicode `White_Space` property, used by
both `str::split_whitespace` and `str::trim`. -/
def isWhitespaceChar (c : Char) : Bool :=
  let n := c.toNat
  n == 0x9 || n == 0xA || n == 0xB || n == 0xC || n == 0xD || n == 0x20 ||
  n == 0x85 || n == 0xA0 || n == 0x1680 ||
  (decide (0x2000 ≤ n) && decide (n ≤ 0x200A)) ||
  n == 0x2028 || n == 0x2029 || n == 0x202F || n == 0x205F || n == 0x3000

/-- Rust `str::trim`: remove leading and trailing whitespace characters. -/
def trim (l : List Char) : List Char :=
  ((l.dropWhile isWhitespaceChar).reverse.dropWhile isWhitespaceChar).reverse

/-- Rust `str::split(sep)` for a single-character separator: the list of
segments between occurrences of `sep` (never empty; `""` splits to `[""]`). -/
def splitOnChar (sep : Char) : List Char → List (List Char)
  | [] => [[]]
  | c :: cs =>
    if c = sep then [] :: splitOnChar sep cs
    else
      match splitOnChar sep cs with
      | [] => [[c]]
      | t :: ts => (c :: t) :: ts

/-- Remove one trailing `'\r'`, as Rust `str::lines` does on each line. -/
def stripCR : List Char → List Char
  | [] => []
  | [c] => if c = '\r' then [] else [c]
  | c :: cs => c :: stripCR cs

/-- Drop a final empty segment (Rust `str::lines` treats `'\n'` as a line
terminator, not a separator). -/
def dropTrailingEmpty : List (List Char) → List (List Char)
  | [] => []
  | [l] => if l.isEmpty then [] else [l]
  | l :: ls => l :: dropTrailingEmpty ls

/-- Rust `str::lines`: split on `'\n'`, dropping a final empty segment and a
single trailing `'\r'` on each line. -/
def rustLines (cs : List Char) : List (List Char) :=
  (dropTrailingEmpty (splitOnChar '\n' cs)).map stripCR

/-- `line.split('=')` from `build_r_cmd_configs`. -/
def splitEq (l : List Char) : List (List Char) := splitOnChar '=' l

/-- Number of `'='` characters in a line. -/
def countEq (l : List Char) : Nat := l.count '='

/-- Rust `str::starts_with` for a concrete ASCII pattern (on ASCII patterns
the byte-level check of the source coincides with this character-level one). -/
def startsWithP : List Char → List Char → Bool
  | [], _ => true
  | _ :: _, [] => false
  | p :: ps, c :: cs => decide (p = c) && startsWithP ps cs

/-- The comment-boundary marker `"##"`. -/
def hhMarker : List Char := ['#', '#']

/-- The empty `HashMap<String, String>`. -/
def emptyMap : List Char → Option (List Char) := fun _ => none

/-- `HashMap::insert`: overwrite any previous binding of the key. -/
def insertKV (m : List Char → Option (List Char)) (k v : List Char) :
    List Char → Option (List Char) :=
  fun q => if q = k then some v else m q

/-- The `ConfigVariables` struct: a map from keys to values. -/
structure ConfigVariables where
  map : List Char → Option (List Char)

/-- `ConfigVariables::get`. -/
def ConfigVariables.get (c : ConfigVariables) (k : List Char) :
    Option (List Char) :=
  c.map k

/-- The per-line acceptance test of the parsing loop:
`let parts: Vec<_> = line.split('=').map(str::trim).collect;`
followed by `if let [name, value] = parts.as_slice()`. -/
def lineKV (l : List Char) : Option (List Char × List Char) :=
  match (splitEq l).map trim with
  | [k, v] => some (k, v)
  | _ => none

/-- The parsing loop of `build_r_cmd_configs`: walk the lines, break at the
first line starting with `"##"`, insert each accepted `(name, value)` pair. -/
def parseLoop (m : List Char → Option (List Char)) :
    List (List Char) → List Char → Option (List Char)
  | [] => m
  | l :: ls =>
    if startsWithP hhMarker l then m
    else
      match lineKV l with
      | some (k, v) => parseLoop (insertKV m k v) ls
      | none => parseLoop m ls

/-- The pure parsing phase of `build_r_cmd_configs`: decoded text to table. -/
def parseConfig (input : List Char) : ConfigVariables :=
  ⟨parseLoop emptyMap (rustLines input)⟩

/-- Outcome of `Command::new(r_binary).args(["CMD","config","--all"]).output()`:
either an I/O error at launch, or a completed run carrying its exit code and
the decoded stderr and stdout texts. -/
inductive CmdOutcome where
  | ioError : CmdOutcome
  | completed (exitCode : Int) (stderrText stdoutText : List Char) : CmdOutcome

/-- `r_cmd_config`: on launch failure the `?` operator propagates the error
(`none`); on completion the decoded stdout is returned regardless of the exit
code, which the source never inspects (stderr is only printed). -/
def r_cmd_config : CmdOutcome → Option (List Char)
  | .ioError => none
  | .completed _ _ stdoutText => some stdoutText

/-- `build_r_cmd_configs` (the body under `#[once]`): parse the captured
stdout on success, return an empty table if the invocation step failed. -/
def build_r_cmd_configs (res : CmdOutcome) : ConfigVariables :=
  match r_cmd_config res with
  | some configs => parseConfig configs
  | none => ⟨emptyMap⟩

/-- Modelled from the spec: the `#[once]` attribute (from the external
`cached` crate, not part of this repository's sources) caches the first
computed `ConfigVariables` for the lifetime of the process; later calls
return the cached table without running the body again.  The cache is passed
as explicit state, and the returned `Nat` counts how many external
invocations the call performed. -/
def get_config (res : CmdOutcome) :
    Option ConfigVariables → ConfigVariables × Option ConfigVariables × Nat
  | some t => (t, some t, 0)
  | none => (build_r_cmd_configs res, some (build_r_cmd_configs res), 1)

/-- Rust `str::split_whitespace` (auxiliary: `acc` holds the reversed
current token). -/
def splitWhitespaceAux : List Char → List Char → List (List Char)
  | acc, [] => if acc.isEmpty then [] else [acc.reverse]
  | acc, c :: cs =>
    if isWhitespaceChar c then
      if acc.isEmpty then splitWhitespaceAux [] cs
      else acc.reverse :: splitWhitespaceAux [] cs
    else splitWhitespaceAux (c :: acc) cs

/-- Rust `str::split_whitespace`: whitespace-separated tokens, empty tokens
discarded. -/
def splitWhitespace (l : List Char) : List (List Char) :=
  splitWhitespaceAux [] l

/-- Rust byte slicing `&s[n..]` on a character-list model: drop the leading
characters covering exactly `n` UTF-8 bytes; `none` models the panic when `n`
is out of bounds or not on a character boundary. -/
def dropBytes : Nat → List Char → Option (List Char)
  | 0, cs => some cs
  | _ + 1, [] => none
  | n + 1, c :: cs =>
    if c.utf8Size ≤ n + 1 then dropBytes (n + 1 - c.utf8Size) cs else none

/-- The body of the inner loop of `get_libs_and_paths`, acting on the pair
(paths, libs): `-L`-tokens push their remainder onto the paths, otherwise
`-l`-tokens push theirs onto the libs, anything else is ignored.  The
`Option` propagates the modelled panic of `part[2..]`. -/
def stepToken (st : List (List Char) × List (List Char)) (t : List Char) :
    Option (List (List Char) × List (List Char)) :=
  if startsWithP ['-', 'L'] t then
    (dropBytes 2 t).map fun r => (st.1 ++ [r], st.2)
  else if startsWithP ['-', 'l'] t then
    (dropBytes 2 t).map fun r => (st.1, st.2 ++ [r])
  else some st

/-- `get_libs_and_paths`: for each input string, split on whitespace and
classify each token; returns `(paths, libs)`, or `none` if any byte slice
would panic. -/
def get_libs_and_paths (strings : List (List Char)) :
    Option (List (List Char) × List (List Char)) :=
  strings.foldlM (fun st s => (splitWhitespace s).foldlM stepToken st) ([], [])

/-- The `-L` classification of a single token, following the spec's words:
an `-L`-prefixed token contributes its remainder after the 2-character
prefix. -/
def pathTok (t : List Char) : Option (List Char) :=
  if startsWithP ['-', 'L'] t then some (t.drop 2) else none

/-- The `-l` classification of a single token, following the spec's words:
an `-l`-prefixed token contributes its remainder after the 2-character
prefix. -/
def libTok (t : List Char) : Option (List Char) :=
  if startsWithP ['-', 'l'] t then some (t.drop 2) else none

/-- Follows the spec's words (for comparison with `get_libs_and_paths`):
every `-L`-prefixed token across all input strings, in order, contributes its
remainder to the path list. -/
def pathTokens (strings : List (List Char)) : List (List Char) :=
  ((strings.map splitWhitespace).flatten).filterMap pathTok

/-- Follows the spec's words (for comparison with `get_libs_and_paths`):
every `-l`-prefixed token across all input strings, in order, contributes its
remainder to the library list. -/
def libTokens (strings : List (List Char)) : List (List Char) :=
  ((strings.map splitWhitespace).flatten).filterMap libTok

/-- `i32::MAX`, the bound used by `wide_from_console_string`. -/
def I32_MAX : Nat := 2147483647

/-- The `assert!(bytes.len() < std::i32::MAX as usize)` guarding
`wide_from_console_string`: `true` iff the assertion passes (the function
does not fail fast) for an input of the given byte length. -/
def wide_from_console_string_ok (len : Nat) : Bool :=
  decide (len < I32_MAX)

/-! ## Analysis of the parsing loop -/

/-- The `(name, value)` pairs the parsing loop accepts, in processing order:
lines are walked top to bottom, stopping at the first `"##"` line. -/
def acceptedPairs : List (List Char) → List (List Char × List Char)
  | [] => []
  | l :: ls =>
    if startsWithP hhMarker l then []
    else
      match lineKV l with
      | some kv => kv :: acceptedPairs ls
      | none => acceptedPairs ls

/-- The value paired with the last occurrence of a key in a pair list. -/
def lastVal : List (List Char × List Char) → List Char → Option (List Char)
  | [], _ => none
  | p :: ps, k => (lastVal ps k).or (if p.1 = k then some p.2 else none)

theorem parseLoop_eq_foldl (ls : List (List Char))
    (m : List Char → Option (List Char)) :
    parseLoop m ls = (acceptedPairs ls).foldl (fun m p => insertKV m p.1 p.2) m := by
  induction ls generalizing m with
  | nil => rfl
  | cons l ls ih =>
    by_cases hm : startsWithP hhMarker l = true
    · simp [parseLoop, acceptedPairs, hm]
    · rcases hkv : lineKV l with _ | ⟨k, v⟩
      · simp [parseLoop, acceptedPairs, hm, hkv, ih]
      · simp [parseLoop, acceptedPairs, hm, hkv, ih]

theorem foldl_insert_apply (ps : List (List Char × List Char))
    (m : List Char → Option (List Char)) (k : List Char) :
    (ps.foldl (fun m p => insertKV m p.1 p.2) m) k =
      (lastVal ps k).or (m k) := by
  induction ps generalizing m with
  | nil => rfl
  | cons p ps ih =>
    simp only [List.foldl_cons, ih, lastVal, Option.or_assoc]
    by_cases hk : p.1 = k
    · subst hk; simp [insertKV]
    · have hk' : ¬ k = p.1 := fun h => hk h.symm
      simp [insertKV, hk, hk']

theorem parseConfig_get (input : List Char) (k : List Char) :
    (parseConfig input).get k = lastVal (acceptedPairs (rustLines input)) k := by
  show parseLoop emptyMap (rustLines input) k = _
  rw [parseLoop_eq_foldl, foldl_insert_apply]
  exact Option.or_none

theorem lastVal_append (xs ys : List (List Char × List Char)) (k : List Char) :
    lastVal (xs ++ ys) k = (lastVal ys k).or (lastVal xs k) := by
  induction xs with
  | nil => simp [lastVal]
  | cons x xs ih =>
    show (lastVal (xs ++ ys) k).or (if x.1 = k then some x.2 else none) =
      (lastVal ys k).or ((lastVal xs k).or (if x.1 = k then some x.2 else none))
    rw [ih, Option.or_assoc]

theorem lastVal_eq_none (ps : List (List Char × List Char)) (k : List Char)
    (h : ∀ p ∈ ps, p.1 ≠ k) : lastVal ps k = none := by
  induction ps with
  | nil => rfl
  | cons p ps ih =>
    have hp : p.1 ≠ k := h p (List.mem_cons_self p ps)
    have hps : lastVal ps k = none := ih fun q hq => h q (List.mem_cons_of_mem p hq)
    simp [lastVal, hps, hp, Option.none_or]

theorem acceptedPairs_append (xs ys : List (List Char))
    (h : ∀ l ∈ xs, startsWithP hhMarker l = false) :
    acceptedPairs (xs ++ ys) = acceptedPairs xs ++ acceptedPairs ys := by
  induction xs with
  | nil => simp [acceptedPairs]
  | cons x xs ih =>
    have hx : startsWithP hhMarker x = false := h x (List.mem_cons_self x xs)
    have ih' := ih fun l hl => h l (List.mem_cons_of_mem x hl)
    rcases hkv : lineKV x with _ | kv <;>
      simp [acceptedPairs, hx, hkv, ih']

theorem acceptedPairs_marker (l : List Char) (ls : List (List Char))
    (h : startsWithP hhMarker l = true) : acceptedPairs (l :: ls) = [] := by
  simp [acceptedPairs, h]

theorem mem_acceptedPairs (ls : List (List Char)) (p : List Char × List Char)
    (h : p ∈ acceptedPairs ls) : ∃ l ∈ ls, lineKV l = some p := by
  induction ls with
  | nil => simp [acceptedPairs] at h
  | cons l ls ih =>
    by_cases hm : startsWithP hhMarker l = true
    · rw [acceptedPairs_marker l ls hm] at h
      simp at h
    · rcases hkv : lineKV l with _ | kv
      · rw [show acceptedPairs (l :: ls) = acceptedPairs ls by
          simp [acceptedPairs, hm, hkv]] at h
        obtain ⟨l', hl', hkv'⟩ := ih h
        exact ⟨l', List.mem_cons_of_mem l hl', hkv'⟩
      · rw [show acceptedPairs (l :: ls) = kv :: acceptedPairs ls by
          simp [acceptedPairs, hm, hkv]] at h
        rcases List.mem_cons.mp h with hkvp | hmem
        · exact ⟨l, List.mem_cons_self l ls, by rw [hkv, hkvp]⟩
        · obtain ⟨l', hl', hkv'⟩ := ih hmem
          exact ⟨l', List.mem_cons_of_mem l hl', hkv'⟩

theorem lineKV_of_split (l : List Char) (k v : List Char)
    (h : (splitEq l).map trim = [k, v]) : lineKV l = some (k, v) := by
  simp [lineKV, h]

theorem split_of_lineKV (l : List Char) (p : List Char × List Char)
    (h : lineKV l = some p) : (splitEq l).map trim = [p.1, p.2] := by
  rcases hs : (splitEq l).map trim with _ | ⟨a, _ | ⟨b, _ | ⟨c, rest⟩⟩⟩ <;>
    simp [lineKV, hs] at h
  rw [← h]

/-! ## Analysis of splitting and of the flag classifier -/

theorem splitOnChar_ne_nil (sep : Char) (l : List Char) :
    splitOnChar sep l ≠ [] := by
  cases l with
  | nil => simp [splitOnChar]
  | cons c cs =>
    by_cases hc : c = sep
    · simp [splitOnChar, hc]
    · rcases h : splitOnChar sep cs with _ | ⟨t, ts⟩ <;> simp [splitOnChar, hc, h]

theorem splitOnChar_length (sep : Char) (l : List Char) :
    (splitOnChar sep l).length = l.count sep + 1 := by
  induction l with
  | nil => simp [splitOnChar, List.count_nil]
  | cons c cs ih =>
    by_cases hc : c = sep
    · simp [splitOnChar, hc, List.count_cons, ih]
    · rcases h : splitOnChar sep cs with _ | ⟨t, ts⟩
      · exact absurd h (splitOnChar_ne_nil sep cs)
      · have hb : ¬ (c == sep) = true := by simp [hc]
        simp only [splitOnChar, if_neg hc, h, List.length_cons, List.count_cons]
        rw [h] at ih
        simp only [List.length_cons] at ih
        simp [ih, hb]

theorem startsWithP_two (a b : Char) (t : List Char)
    (h : startsWithP [a, b] t = true) : ∃ rest, t = a :: b :: rest := by
  rcases t with _ | ⟨c, _ | ⟨d, rest⟩⟩ <;> simp [startsWithP] at h
  obtain ⟨h1, h2⟩ := h
  exact ⟨rest, by simp [h1, h2]⟩

theorem startsWithP_L_not_l (t : List Char)
    (h : startsWithP ['-', 'L'] t = true) : startsWithP ['-', 'l'] t = false := by
  obtain ⟨rest, hrest⟩ := startsWithP_two '-' 'L' t h
  subst hrest
  have hel : (decide ('l' = 'L')) = false := by decide
  simp [startsWithP, hel]

theorem dropBytes_two (a b : Char) (rest : List Char)
    (h1 : a.utf8Size = 1) (h2 : b.utf8Size = 1) :
    dropBytes 2 (a :: b :: rest) = some rest := by
  simp [dropBytes, h1, h2]

theorem stepToken_eq (st : List (List Char) × List (List Char)) (t : List Char) :
    stepToken st t = some (st.1 ++ (pathTok t).toList, st.2 ++ (libTok t).toList) := by
  by_cases hL : startsWithP ['-', 'L'] t = true
  · obtain ⟨rest, hrest⟩ := startsWithP_two '-' 'L' t hL
    have hl := startsWithP_L_not_l t hL
    subst hrest
    rw [stepToken, if_pos hL,
      dropBytes_two '-' 'L' rest (by decide) (by decide)]
    simp [pathTok, libTok, hL, hl]
  · by_cases hl : startsWithP ['-', 'l'] t = true
    · obtain ⟨rest, hrest⟩ := startsWithP_two '-' 'l' t hl
      subst hrest
      rw [stepToken, if_neg hL, if_pos hl,
        dropBytes_two '-' 'l' rest (by decide) (by decide)]
      simp [pathTok, libTok, hL, hl]
    · rw [stepToken, if_neg hL, if_neg hl]
      simp [pathTok, libTok, hL, hl]

theorem foldlM_stepToken (ts : List (List Char))
    (st : List (List Char) × List (List Char)) :
    ts.foldlM stepToken st =
      some (st.1 ++ ts.filterMap pathTok, st.2 ++ ts.filterMap libTok) := by
  induction ts generalizing st with
  | nil => simp [List.foldlM]
  | cons t ts ih =>
    rw [List.foldlM_cons, stepToken_eq]
    show (ts.foldlM stepToken _) = _
    rw [ih]
    rcases hp : pathTok t with _ | p <;> rcases hq : libTok t with _ | q <;>
      simp [List.filterMap_cons, hp, hq]

theorem get_libs_aux (strings : List (List Char))
    (st : List (List Char) × List (List Char)) :
    strings.foldlM (fun st s => (splitWhitespace s).foldlM stepToken st) st =
      some (st.1 ++ pathTokens strings, st.2 ++ libTokens strings) := by
  induction strings generalizing st with
  | nil => simp [List.foldlM, pathTokens, libTokens]
  | cons s ss ih =>
    rw [List.foldlM_cons]
    show ((splitWhitespace s).foldlM stepToken st >>= _) = _
    rw [foldlM_stepToken]
    show (ss.foldlM _ _) = _
    rw [ih]
    simp [pathTokens, libTokens, List.filterMap_append, pathTok, libTok]

theorem get_libs_eq (strings : List (List Char)) :
    get_libs_and_paths strings = some (pathTokens strings, libTokens strings) := by
  rw [get_libs_and_paths, get_libs_aux]
  simp

/-! ## Claims -/

/-- C1, counterexample: in `"A = 1\nA = 2"` no line begins with `##` and the
line `"A = 1"` contains exactly one `=`, yet the table does not map its
trimmed key `"A"` to its trimmed value `"1"` (the later duplicate wins), so
the line yields no entry with its own key and value. -/
theorem c1_duplicate_key_counterexample :
    (∀ l ∈ rustLines ("A = 1\nA = 2").data, startsWithP hhMarker l = false) ∧
    (("A = 1").data) ∈ rustLines ("A = 1\nA = 2").data ∧
    countEq (("A = 1").data) = 1 ∧
    (splitEq (("A = 1").data)).map trim = [("A").data, ("1").data] ∧
    (parseConfig ("A = 1\nA = 2").data).get (("A").data) ≠ some (("1").data) := by
  decide

/-- C1, amended: for decoded text with no `##` line, every line containing
exactly one `=` (split/trim yielding `[k, v]`) puts its trimmed key `k` in
the table; and if no later line splits to the same key, the value associated
with `k` is that line's own trimmed value `v`. -/
theorem c1_trimmed_pairs_in_table (input : List Char)
    (pre post : List (List Char)) (l k v : List Char)
    (hsplit : rustLines input = pre ++ l :: post)
    (hnc : ∀ l' ∈ rustLines input, startsWithP hhMarker l' = false)
    (hkv : (splitEq l).map trim = [k, v]) :
    (∃ w, (parseConfig input).get k = some w) ∧
    ((∀ l' ∈ post, ∀ v', (splitEq l').map trim ≠ [k, v']) →
      (parseConfig input).get k = some v) := by
  have hline : lineKV l = some (k, v) := lineKV_of_split l k v hkv
  have hpre : ∀ l' ∈ pre, startsWithP hhMarker l' = false := fun l' hl' =>
    hnc l' (by rw [hsplit]; exact List.mem_append_left _ hl')
  have hncl : startsWithP hhMarker l = false :=
    hnc l (by rw [hsplit]; exact List.mem_append_right _ (List.mem_cons_self l post))
  have hap : acceptedPairs (rustLines input) =
      acceptedPairs pre ++ (k, v) :: acceptedPairs post := by
    rw [hsplit, acceptedPairs_append pre (l :: post) hpre]
    congr 1
    simp [acceptedPairs, hncl, hline]
  constructor
  · rw [parseConfig_get, hap, lastVal_append]
    rcases hpost : lastVal (acceptedPairs post) k with _ | w
    · exact ⟨v, by simp [lastVal, hpost]⟩
    · exact ⟨w, by simp [lastVal, hpost]⟩
  · intro hno
    have hpostnone : lastVal (acceptedPairs post) k = none := by
      apply lastVal_eq_none
      intro p hp hpk
      obtain ⟨l', hl', hkv'⟩ := mem_acceptedPairs post p hp
      exact hno l' hl' p.2 (by rw [← hpk]; exact split_of_lineKV l' p hkv')
    rw [parseConfig_get, hap, lastVal_append]
    simp [lastVal, hpostnone]

/-- C1, witness for the amended theorem at the input `"X = 1\nY = 2"`. -/
theorem c1_witness :
    rustLines ("X = 1\nY = 2").data =
      [] ++ (("X = 1").data) :: [("Y = 2").data] ∧
    (∀ l' ∈ rustLines ("X = 1\nY = 2").data, startsWithP hhMarker l' = false) ∧
    (splitEq (("X = 1").data)).map trim = [("X").data, ("1").data] ∧
    ((∃ w, (parseConfig ("X = 1\nY = 2").data).get (("X").data) = some w) ∧
     ((∀ l' ∈ [("Y = 2").data], ∀ v',
        (splitEq l').map trim ≠ [("X").data, v']) →
       (parseConfig ("X = 1\nY = 2").data).get (("X").data) =
         some (("1").data))) :=
  ⟨by decide, by decide, by decide,
    c1_trimmed_pairs_in_table (("X = 1\nY = 2").data) [] [("Y = 2").data]
      (("X = 1").data) (("X").data) (("1").data)
      (by decide) (by decide) (by decide)⟩

/-- C2: parsing stops at the first line beginning with `##`: the accepted
pairs of the whole line sequence are exactly those of the lines before the
marker, and every lookup in the resulting table is decided by those earlier
lines alone, so no pair coming from the marker line or any later line is
present. -/
theorem c2_parsing_stops_at_marker (input : List Char)
    (pre : List (List Char)) (l : List Char) (post : List (List Char))
    (hsplit : rustLines input = pre ++ l :: post)
    (hl : startsWithP hhMarker l = true)
    (hpre : ∀ l' ∈ pre, startsWithP hhMarker l' = false) :
    acceptedPairs (rustLines input) = acceptedPairs pre ∧
    ∀ k, (parseConfig input).get k = lastVal (acceptedPairs pre) k := by
  have hap : acceptedPairs (rustLines input) = acceptedPairs pre := by
    rw [hsplit, acceptedPairs_append pre (l :: post) hpre,
      acceptedPairs_marker l post hl, List.append_nil]
  exact ⟨hap, fun k => by rw [parseConfig_get, hap]⟩

/-- C2, witness at the input `"A = 1\n## end\nB = 2"`: the `"B = 2"` line
after the marker is well formed, yet the table is decided by `"A = 1"`
alone. -/
theorem c2_witness :
    rustLines ("A = 1\n## end\nB = 2").data =
      [("A = 1").data] ++ (("## end").data) :: [("B = 2").data] ∧
    startsWithP hhMarker (("## end").data) = true ∧
    (∀ l' ∈ [("A = 1").data], startsWithP hhMarker l' = false) ∧
    (acceptedPairs (rustLines ("A = 1\n## end\nB = 2").data) =
      acceptedPairs [("A = 1").data] ∧
     ∀ k, (parseConfig ("A = 1\n## end\nB = 2").data).get k =
       lastVal (acceptedPairs [("A = 1").data]) k) :=
  ⟨by decide, by decide, by decide,
    c2_parsing_stops_at_marker (("A = 1\n## end\nB = 2").data)
      [("A = 1").data] (("## end").data) [("B = 2").data]
      (by decide) (by decide) (by decide)⟩

/-- C3, counterexample: a completed run with non-zero exit code `1` and
stdout `"A = 1"` yields a table containing `A -> 1`: the parser IS invoked
and the table is NOT empty, because the source never inspects the exit
status. -/
theorem c3_nonzero_exit_counterexample :
    (1 : Int) ≠ 0 ∧
    (build_r_cmd_configs (CmdOutcome.completed 1 [] (("A = 1").data))).get
      (("A").data) = some (("1").data) := by
  decide

/-- C3, amended: only an I/O error launching the command yields an empty
table with the parser not invoked; no error is propagated to the caller.  A
completed run is parsed regardless of its exit code, which is ignored. -/
theorem c3_empty_table_only_on_launch_failure :
    (∀ k, (build_r_cmd_configs CmdOutcome.ioError).get k = none) ∧
    (∀ e errT outT, build_r_cmd_configs (CmdOutcome.completed e errT outT) =
      parseConfig outT) :=
  ⟨fun _ => rfl, fun _ _ _ => rfl⟩

/-- C4: `get_libs_and_paths` never panics and returns exactly the lists the
spec describes: the remainders of the `-L`-prefixed tokens in the path list
and of the `-l`-prefixed tokens in the library list, in input-string order
then token order, with no deduplication or sorting (as witnessed by the
order-preserving `filterMap` characterization); the spec's concrete example
evaluates as stated. -/
theorem c4_get_libs_and_paths_spec :
    (∀ strings, get_libs_and_paths strings =
      some (pathTokens strings, libTokens strings)) ∧
    get_libs_and_paths [("-L/usr/lib -lm -lblas").data, ("-Lfoo").data] =
      some ([("/usr/lib").data, ("foo").data], [("m").data, ("blas").data]) :=
  ⟨get_libs_eq, by decide⟩

/-- C5: with the cache initially empty, the first `get_config` call performs
exactly one external invocation and the second call returns the identical
table with zero further invocations, so two calls reflect exactly one
external invocation. -/
theorem c5_get_config_memoized (res : CmdOutcome) :
    (get_config res ((get_config res none).2.1)).1 = (get_config res none).1 ∧
    (get_config res none).2.2 +
      (get_config res ((get_config res none).2.1)).2.2 = 1 :=
  ⟨rfl, rfl⟩

/-- C6: for a line before the comment boundary, splitting on `=` yields one
more segment than the number of `=` characters; the line is accepted
(`lineKV` is `some`) iff the split has exactly two segments; an accepted line
contributes its pair and a rejected one contributes nothing and no error;
the spec's example `"NOVALUE\nB = 2"` yields a table containing only
`B -> 2`. -/
theorem c6_line_accepted_iff_two_segments (l : List Char)
    (ls : List (List Char)) (h : startsWithP hhMarker l = false) :
    ((splitEq l).length = countEq l + 1) ∧
    ((lineKV l).isSome = true ↔ (splitEq l).length = 2) ∧
    (∀ kv, lineKV l = some kv → acceptedPairs (l :: ls) = kv :: acceptedPairs ls) ∧
    (lineKV l = none → acceptedPairs (l :: ls) = acceptedPairs ls) ∧
    (parseConfig ("NOVALUE\nB = 2").data).get (("B").data) = some (("2").data) ∧
    (∀ k, k ≠ ("B").data → (parseConfig ("NOVALUE\nB = 2").data).get k = none) := by
  refine ⟨splitOnChar_length '=' l, ?_, ?_, ?_, by decide, ?_⟩
  · rcases hs : splitEq l with _ | ⟨a, _ | ⟨b, _ | ⟨c, r⟩⟩⟩ <;> simp [lineKV, hs]
  · intro kv hkv
    simp [acceptedPairs, h, hkv]
  · intro hkv
    simp [acceptedPairs, h, hkv]
  · intro k hk
    rw [parseConfig_get,
      show acceptedPairs (rustLines ("NOVALUE\nB = 2").data) =
        [(("B").data, ("2").data)] from by decide]
    simp [lastVal, Option.none_or]
    intro hbk
    exact absurd hbk.symm hk

/-- C6, witness for the line `"B = 2"` before an empty tail. -/
theorem c6_witness :
    startsWithP hhMarker (("B = 2").data) = false ∧
    (((splitEq (("B = 2").data)).length = countEq (("B = 2").data) + 1) ∧
     ((lineKV (("B = 2").data)).isSome = true ↔
        (splitEq (("B = 2").data)).length = 2) ∧
     (∀ kv, lineKV (("B = 2").data) = some kv →
        acceptedPairs [("B = 2").data] = kv :: acceptedPairs []) ∧
     (lineKV (("B = 2").data) = none →
        acceptedPairs [("B = 2").data] = acceptedPairs []) ∧
     (parseConfig ("NOVALUE\nB = 2").data).get (("B").data) =
       some (("2").data) ∧
     (∀ k, k ≠ ("B").data →
        (parseConfig ("NOVALUE\nB = 2").data).get k = none)) :=
  ⟨by decide, c6_line_accepted_iff_two_segments (("B = 2").data) [] (by decide)⟩

/-- C7: a lookup returns the value of the last accepted line bearing the key
(last-write-wins), and on the spec's example `"A = 1\nA = 2"` the lookup of
`"A"` returns `"2"`. -/
theorem c7_last_write_wins :
    (∀ input k, (parseConfig input).get k =
      lastVal (acceptedPairs (rustLines input)) k) ∧
    (parseConfig ("A = 1\nA = 2").data).get (("A").data) = some (("2").data) :=
  ⟨parseConfig_get, by decide⟩

/-- C8, counterexample: an input of length exactly `i32::MAX` does not
exceed the conversion API's signed 32-bit limit, yet the assertion of
`wide_from_console_string` fails for it, because the code's bound is
strict. -/
theorem c8_limit_boundary_counterexample :
    2147483647 ≤ I32_MAX ∧ wide_from_console_string_ok 2147483647 = false := by
  decide

/-- C8, amended: the length assertion of `wide_from_console_string` holds
exactly for inputs whose byte length is strictly below `i32::MAX`; a length
of `i32::MAX` or more is a contract violation that fails fast. -/
theorem c8_assert_iff_strictly_below (len : Nat) :
    wide_from_console_string_ok len = true ↔ len < I32_MAX := by
  simp [wide_from_console_string_ok]

/-- C9: `get_libs_and_paths` is total: the modelled byte slice `part[2..]`
never panics (it is only taken on tokens beginning with the two one-byte
characters `-L` or `-l`, so index 2 is always in bounds and on a character
boundary), hence the result is always `some`. -/
theorem c9_get_libs_and_paths_total (strings : List (List Char)) :
    (get_libs_and_paths strings).isSome = true := by
  rw [get_libs_eq]
  rfl

/-- C10: a bare `-L` token contributes the empty string to the path list and
a bare `-l` token contributes the empty string to the library list; any
token beginning with `-L` goes to the path list and leaves the library list
unchanged (the `-L` test comes first), and no token beginning with `-L` also
passes the `-l` test; end to end, input `["-L", "-l"]` yields `([""], [""])`. -/
theorem c10_bare_flag_tokens (st : List (List Char) × List (List Char)) :
    stepToken st ['-', 'L'] = some (st.1 ++ [[]], st.2) ∧
    stepToken st ['-', 'l'] = some (st.1, st.2 ++ [[]]) ∧
    (∀ rest, stepToken st ('-' :: 'L' :: rest) = some (st.1 ++ [rest], st.2)) ∧
    (∀ rest, startsWithP ['-', 'l'] ('-' :: 'L' :: rest) = false) ∧
    get_libs_and_paths [['-', 'L'], ['-', 'l']] = some ([[]], [[]]) := by
  refine ⟨rfl, rfl, fun rest => ?_, fun _ => rfl, by decide⟩
  have h : startsWithP ['-', 'L'] ('-' :: 'L' :: rest) = true := by
    simp [startsWithP]
  simp only [stepToken, h, if_true]
  rw [dropBytes_two '-' 'L' rest (by decide) (by decide)]
  rfl
